import Mathlib

/-
Shallow embedding of the SMODERP2D runoff-model core, covering:
 * smoderp2d/processes/infiltration/__init__.py  (philip_infiltration, phlilip)
 * smoderp2d/providers/base/__init__.py          (BaseProvider.postprocessing)
 * smoderp2d/providers/nogis/__init__.py         (_get_crit_water, _set_combinatIndex)

Arrays are embedded as functions from a flat cell index; machine floats are
embedded as rationals (reals where fractional powers or square roots occur).
Fallible routines return Except over the Python exception kinds they raise.
-/

/-- The Python exception kinds raised by the embedded routines:
`NegativeWaterLevel`, list `IndexError`, and `SmoderpError`. -/
inductive PyErr where
  | negativeWaterLevel
  | indexError
  | smoderpError
deriving DecidableEq

/-- One entry `z` of the global `combinatIndex` table as read by
`philip_infiltration`: `z[0]` is the group id compared against the `soil`
array, `z[3]` is the group's current infiltration capacity.  (`z[1]`, `z[2]`
hold conductivity and sorptivity; they are not read by this routine.) -/
structure InfGroup where
  gid : ℤ
  cap : ℚ
deriving DecidableEq

/-- `ma.all(bil < 0)` over the `n` cells of the surface-depth array:
true when every entry is negative (true on an empty array, as in numpy). -/
def allNegB (n : ℕ) (bil : ℕ → ℚ) : Bool :=
  (List.range n).all fun i => decide (bil i < 0)

/-- One group's rewrite of the surface-depth array `bil`:
`bil = ma.where(soil == z[0], ma.where(z[3] > bil, 0, bil - z[3]), bil)`. -/
def stepBil (z : InfGroup) (soil : ℕ → ℤ) (bil : ℕ → ℚ) : ℕ → ℚ :=
  fun i =>
    if soil i = z.gid then (if z.cap > bil i then 0 else bil i - z.cap)
    else bil i

/-- One group's rewrite of the tentative infiltration array:
`infiltration = ma.where(soil == z[0], ma.where(z[3] > bil, bil, z[3]), infiltration)`,
computed from the depth array `bil` before the same group rewrites it. -/
def stepInfil (z : InfGroup) (soil : ℕ → ℤ) (bil infil : ℕ → ℚ) : ℕ → ℚ :=
  fun i =>
    if soil i = z.gid then (if z.cap > bil i then bil i else z.cap)
    else infil i

/-- The `for z in combinatIndex` loop of `philip_infiltration`: before each
group the guard `if ma.all(bil < 0): raise NegativeWaterLevel()` runs, then the
matched cells of `bil` and `infiltration` are rewritten. -/
def philipLoop (n : ℕ) (soil : ℕ → ℤ) :
    List InfGroup → (ℕ → ℚ) → (ℕ → ℚ) → Except PyErr ((ℕ → ℚ) × (ℕ → ℚ))
  | [], bil, infil => .ok (bil, infil)
  | z :: rest, bil, infil =>
      if allNegB n bil then .error .negativeWaterLevel
      else philipLoop n soil rest (stepBil z soil bil) (stepInfil z soil bil infil)

/-- `philip_infiltration(soil, bil)`: the tentative infiltration array starts
as the scalar `combinatIndex[0][3]` (an `IndexError` on an empty table), then
the group loop runs; returns the pair `(bil, infiltration)`. -/
def philip_infiltration (n : ℕ) (table : List InfGroup) (soil : ℕ → ℤ)
    (bil : ℕ → ℚ) : Except PyErr ((ℕ → ℚ) × (ℕ → ℚ)) :=
  match table with
  | [] => .error .indexError
  | z0 :: _ => philipLoop n soil table bil (fun _ => z0.cap)

/-- The error-free value computed by the group loop (what `philipLoop`
returns whenever no guard fires). -/
def philipFold (soil : ℕ → ℤ) :
    List InfGroup → (ℕ → ℚ) → (ℕ → ℚ) → (ℕ → ℚ) × (ℕ → ℚ)
  | [], bil, infil => (bil, infil)
  | z :: rest, bil, infil =>
      philipFold soil rest (stepBil z soil bil) (stepInfil z soil bil infil)

/-- Observer distinguishing a normal return from a raised exception. -/
def isOkE {α : Type} : Except PyErr α → Bool
  | .ok _ => true
  | .error _ => false

theorem allNegB_true_iff (n : ℕ) (bil : ℕ → ℚ) :
    allNegB n bil = true ↔ ∀ i, i < n → bil i < 0 := by
  simp [allNegB, List.all_eq_true, List.mem_range]

theorem allNegB_eq_false (n : ℕ) (bil : ℕ → ℚ) (j : ℕ) (hj : j < n)
    (h : 0 ≤ bil j) : allNegB n bil = false := by
  cases hab : allNegB n bil with
  | false => rfl
  | true =>
      exact absurd ((allNegB_true_iff n bil).1 hab j hj) (not_lt.mpr h)

theorem stepBil_nonneg (z : InfGroup) (soil : ℕ → ℤ) (bil : ℕ → ℚ) (j : ℕ)
    (h : 0 ≤ bil j) : 0 ≤ stepBil z soil bil j := by
  by_cases h1 : soil j = z.gid
  · simp only [stepBil, if_pos h1]
    by_cases h2 : z.cap > bil j
    · simp [h2]
    · rw [if_neg h2]
      linarith [not_lt.mp h2]
  · simpa [stepBil, h1] using h

theorem philipFold_bil_nonneg (soil : ℕ → ℤ) (table : List InfGroup)
    (bil infil : ℕ → ℚ) (j : ℕ) (h : 0 ≤ bil j) :
    0 ≤ (philipFold soil table bil infil).1 j := by
  induction table generalizing bil infil with
  | nil => exact h
  | cons z rest ih =>
      exact ih (stepBil z soil bil) (stepInfil z soil bil infil)
        (stepBil_nonneg z soil bil j h)

theorem philipLoop_eq_fold (n : ℕ) (soil : ℕ → ℤ) (table : List InfGroup)
    (bil infil : ℕ → ℚ) (j : ℕ) (hj : j < n) (h : 0 ≤ bil j) :
    philipLoop n soil table bil infil = .ok (philipFold soil table bil infil) := by
  induction table generalizing bil infil with
  | nil => rfl
  | cons z rest ih =>
      unfold philipLoop philipFold
      rw [allNegB_eq_false n bil j hj h]
      simp only [Bool.false_eq_true, if_false]
      exact ih (stepBil z soil bil) (stepInfil z soil bil infil)
        (stepBil_nonneg z soil bil j h)

theorem philipFold_frame (soil : ℕ → ℤ) (table : List InfGroup)
    (bil infil : ℕ → ℚ) (i : ℕ) (h : ∀ z ∈ table, soil i ≠ z.gid) :
    (philipFold soil table bil infil).1 i = bil i ∧
    (philipFold soil table bil infil).2 i = infil i := by
  induction table generalizing bil infil with
  | nil => exact ⟨rfl, rfl⟩
  | cons z rest ih =>
      have hz : soil i ≠ z.gid := h z (List.mem_cons_self z rest)
      have hrest : ∀ z' ∈ rest, soil i ≠ z'.gid :=
        fun z' hz' => h z' (List.mem_cons_of_mem z hz')
      have := ih (stepBil z soil bil) (stepInfil z soil bil infil) hrest
      simp only [philipFold]
      constructor
      · rw [this.1]; simp [stepBil, hz]
      · rw [this.2]; simp [stepInfil, hz]

theorem philipFold_append (soil : ℕ → ℤ) (t1 t2 : List InfGroup)
    (bil infil : ℕ → ℚ) :
    philipFold soil (t1 ++ t2) bil infil =
      philipFold soil t2 (philipFold soil t1 bil infil).1
        (philipFold soil t1 bil infil).2 := by
  induction t1 generalizing bil infil with
  | nil => rfl
  | cons z rest ih =>
      simp only [List.cons_append, philipFold]
      exact ih (stepBil z soil bil) (stepInfil z soil bil infil)

/-- The claim that any surface-depth array with at least one negative entry
makes `philip_infiltration` raise `NegativeWaterLevel`. -/
def claimC1Prop : Prop :=
  ∀ (n : ℕ) (table : List InfGroup) (soil : ℕ → ℤ) (bil : ℕ → ℚ),
    table ≠ [] → (∃ i, i < n ∧ bil i < 0) →
    philip_infiltration n table soil bil = .error .negativeWaterLevel

/-- C1 counterexample: the depth array `[-1, 2]` has a negative entry, yet
`philip_infiltration` returns normally — the guard is `ma.all(bil < 0)`,
which only fires when every entry is negative. -/
theorem philip_negWL_counterexample : ¬ claimC1Prop := by
  intro h
  have hc := h 2 [⟨0, 1⟩] (fun _ => 0) (fun i => if i = 0 then -1 else 2)
    (by simp) ⟨0, by norm_num, by norm_num⟩
  have hok : isOkE (philip_infiltration 2 [⟨0, 1⟩] (fun _ => 0)
      (fun i => if i = 0 then -1 else 2)) = true := by decide
  rw [hc] at hok
  simp [isOkE] at hok

/-- C1 (amended): on a non-empty group table, `philip_infiltration` raises
`NegativeWaterLevel` exactly when every entry of the surface-depth array is
negative; the guard runs before the first group, so in the raising case no
group is processed, while an array with a negative entry next to a
non-negative one passes through without the error. -/
theorem philip_negWL_iff (n : ℕ) (z0 : InfGroup) (rest : List InfGroup)
    (soil : ℕ → ℤ) (bil : ℕ → ℚ) :
    philip_infiltration n (z0 :: rest) soil bil = .error .negativeWaterLevel ↔
      ∀ i, i < n → bil i < 0 := by
  constructor
  · intro h
    by_contra hneg
    push_neg at hneg
    obtain ⟨i, hi, hge⟩ := hneg
    have heq := philipLoop_eq_fold n soil (z0 :: rest) bil (fun _ => z0.cap)
      i hi (le_of_not_lt (by exact fun hlt => absurd hlt (not_lt.mpr hge)))
    rw [show philip_infiltration n (z0 :: rest) soil bil =
        philipLoop n soil (z0 :: rest) bil (fun _ => z0.cap) from rfl, heq] at h
    exact Except.noConfusion h
  · intro h
    show philipLoop n soil (z0 :: rest) bil (fun _ => z0.cap) = _
    unfold philipLoop
    rw [(allNegB_true_iff n bil).2 h]
    simp

/-- Instance of the amended C1 statement at a concrete all-negative input. -/
theorem philip_negWL_iff_witness :
    philip_infiltration 1 [⟨0, 1⟩] (fun _ => 0) (fun _ => -1) =
      .error .negativeWaterLevel :=
  (philip_negWL_iff 1 ⟨0, 1⟩ [] (fun _ => 0) (fun _ => -1)).mpr
    (fun _ _ => by norm_num)

/-- C3: for a cell of an infiltration group (group ids pairwise distinct in
the table, all input depths non-negative), the pass returns normally, the
cell's infiltration equals `min(group capacity, surface depth)` — hence
exceeds neither — the cell's new depth is the old depth minus that amount,
and every cell's depth after the pass is non-negative. -/
theorem philip_matched_min (n : ℕ) (table : List InfGroup) (soil : ℕ → ℤ)
    (bil : ℕ → ℚ) (z : InfGroup) (i : ℕ)
    (hnd : (table.map InfGroup.gid).Nodup)
    (hnn : ∀ j, j < n → 0 ≤ bil j)
    (hi : i < n) (hz : z ∈ table) (hsoil : soil i = z.gid) :
    ∃ out, philip_infiltration n table soil bil = .ok out ∧
      out.2 i = min z.cap (bil i) ∧
      out.2 i ≤ z.cap ∧ out.2 i ≤ bil i ∧
      out.1 i = bil i - min z.cap (bil i) ∧
      ∀ j, j < n → 0 ≤ out.1 j := by
  obtain ⟨l1, l2, rfl⟩ := List.append_of_mem hz
  obtain ⟨z0, rest, htab⟩ :
      ∃ z0 rest, l1 ++ z :: l2 = z0 :: rest := by
    cases l1 with
    | nil => exact ⟨z, l2, rfl⟩
    | cons w l1' => exact ⟨w, l1' ++ z :: l2, rfl⟩
  rw [List.map_append, List.map_cons] at hnd
  have hsplit := List.nodup_append.mp hnd
  have hgid1 : ∀ z' ∈ l1, soil i ≠ z'.gid := by
    intro z' hz' heq
    exact (hsplit.2.2 (hsoil ▸ heq ▸ List.mem_map_of_mem InfGroup.gid hz'))
      (List.mem_cons_self _ _)
  have hgid2 : ∀ z' ∈ l2, soil i ≠ z'.gid := by
    intro z' hz' heq
    exact (List.nodup_cons.mp hsplit.2.1).1
      (hsoil ▸ heq ▸ List.mem_map_of_mem InfGroup.gid hz')
  refine ⟨philipFold soil (l1 ++ z :: l2) bil (fun _ => z0.cap), ?_, ?_⟩
  · rw [show philip_infiltration n (l1 ++ z :: l2) soil bil =
        philipLoop n soil (l1 ++ z :: l2) bil (fun _ => z0.cap) by
      rw [htab]; rfl]
    exact philipLoop_eq_fold n soil _ bil _ i hi (hnn i hi)
  · have hfr1 := philipFold_frame soil l1 bil (fun _ => z0.cap) i hgid1
    rw [philipFold_append]
    set b1 := (philipFold soil l1 bil (fun _ => z0.cap)).1 with hb1
    set f1 := (philipFold soil l1 bil (fun _ => z0.cap)).2 with hf1
    have hstep : philipFold soil (z :: l2) b1 f1 =
        philipFold soil l2 (stepBil z soil b1) (stepInfil z soil b1 f1) := rfl
    rw [hstep]
    have hfr2 := philipFold_frame soil l2 (stepBil z soil b1)
      (stepInfil z soil b1 f1) i hgid2
    have hbi : b1 i = bil i := hfr1.1
    have hinf : stepInfil z soil b1 f1 i = min z.cap (bil i) := by
      simp only [stepInfil, if_pos hsoil, hbi]
      by_cases hc : z.cap > bil i
      · rw [if_pos hc, min_eq_right (le_of_lt hc)]
      · rw [if_neg hc, min_eq_left (not_lt.mp hc)]
    have hbil : stepBil z soil b1 i = bil i - min z.cap (bil i) := by
      simp only [stepBil, if_pos hsoil, hbi]
      by_cases hc : z.cap > bil i
      · rw [if_pos hc, min_eq_right (le_of_lt hc), sub_self]
      · rw [if_neg hc, min_eq_left (not_lt.mp hc)]
    refine ⟨hfr2.2.trans hinf, ?_, ?_, hfr2.1.trans hbil, ?_⟩
    · rw [hfr2.2.trans hinf]; exact min_le_left _ _
    · rw [hfr2.2.trans hinf]; exact min_le_right _ _
    · intro j hj
      have h1 : 0 ≤ b1 j := by
        rw [hb1]
        exact philipFold_bil_nonneg soil l1 bil (fun _ => z0.cap) j (hnn j hj)
      exact philipFold_bil_nonneg soil l2 (stepBil z soil b1)
        (stepInfil z soil b1 f1) j (stepBil_nonneg z soil b1 j h1)

/-- Instance of C3 at a concrete input: capacity 1, depth 2, so the cell
infiltrates min 1 2 = 1 and ends with depth 1. -/
theorem philip_matched_min_witness :
    ∃ out, philip_infiltration 1 [⟨0, 1⟩] (fun _ => 0) (fun _ => 2) =
        .ok out ∧
      out.2 0 = min 1 2 ∧ out.2 0 ≤ 1 ∧ out.2 0 ≤ 2 ∧
      out.1 0 = 2 - min 1 2 ∧ ∀ j, j < 1 → 0 ≤ out.1 j :=
  philip_matched_min 1 [⟨0, 1⟩] (fun _ => 0) (fun _ => 2) ⟨0, 1⟩ 0
    (by decide) (fun _ _ => by norm_num) (by norm_num)
    (List.mem_cons_self _ _) rfl

/-- C8: a cell whose group id differs from the group being processed keeps
both its tentative surface depth and its tentative infiltration value under
that group's rewrite, and consequently a run of groups none of which matches
the cell leaves both values at that cell untouched. -/
theorem philip_unmatched_frame (z : InfGroup) (table : List InfGroup)
    (soil : ℕ → ℤ) (bil infil : ℕ → ℚ) (i : ℕ) (hz : soil i ≠ z.gid) :
    stepBil z soil bil i = bil i ∧
    stepInfil z soil bil infil i = infil i ∧
    ((∀ z' ∈ table, soil i ≠ z'.gid) →
      (philipFold soil table bil infil).1 i = bil i ∧
      (philipFold soil table bil infil).2 i = infil i) :=
  ⟨by simp [stepBil, hz], by simp [stepInfil, hz],
   fun h => philipFold_frame soil table bil infil i h⟩

/-- Instance of C8 at a concrete input: cell 0 has group id 0, the processed
groups have ids 1 and 2, and both tentative values survive unchanged. -/
theorem philip_unmatched_frame_witness :
    stepBil ⟨1, 2⟩ (fun _ => 0) (fun _ => 3) 0 = 3 ∧
    stepInfil ⟨1, 2⟩ (fun _ => 0) (fun _ => 3) (fun _ => 4) 0 = 4 ∧
    (philipFold (fun _ => 0) [⟨1, 2⟩, ⟨2, 5⟩] (fun _ => 3) (fun _ => 4)).1 0 = 3 ∧
    (philipFold (fun _ => 0) [⟨1, 2⟩, ⟨2, 5⟩] (fun _ => 3) (fun _ => 4)).2 0 = 4 := by
  have h := philip_unmatched_frame ⟨1, 2⟩ [⟨1, 2⟩, ⟨2, 5⟩] (fun _ => 0)
    (fun _ => 3) (fun _ => 4) 0 (by decide)
  exact ⟨h.1, h.2.1, h.2.2 (by decide)⟩

/-- C10: on a non-empty group table (with some cell of non-negative depth so
the pass completes), a cell matching no group in the table gets the first
group's stored capacity `combinatIndex[0][3]` as its infiltration value and
keeps its depth; on an empty table the call fails with an `IndexError`. -/
theorem philip_unmatched_default (n : ℕ) (z0 : InfGroup) (rest : List InfGroup)
    (soil : ℕ → ℤ) (bil : ℕ → ℚ) (i j : ℕ)
    (hj : j < n) (hjnn : 0 ≤ bil j)
    (hnomatch : ∀ z ∈ z0 :: rest, soil i ≠ z.gid) :
    (∃ out, philip_infiltration n (z0 :: rest) soil bil = .ok out ∧
      out.2 i = z0.cap ∧ out.1 i = bil i) ∧
    philip_infiltration n [] soil bil = .error .indexError := by
  constructor
  · refine ⟨philipFold soil (z0 :: rest) bil (fun _ => z0.cap), ?_, ?_, ?_⟩
    · exact philipLoop_eq_fold n soil (z0 :: rest) bil _ j hj hjnn
    · exact (philipFold_frame soil (z0 :: rest) bil _ i hnomatch).2
    · exact (philipFold_frame soil (z0 :: rest) bil _ i hnomatch).1
  · rfl

/-- Instance of C10 at a concrete input: the only group has id 0 and capacity
7, the cell's group id is 5, and the cell's infiltration comes back as 7. -/
theorem philip_unmatched_default_witness :
    (∃ out, philip_infiltration 1 [⟨0, 7⟩] (fun _ => 5) (fun _ => 2) =
        .ok out ∧ out.2 0 = 7 ∧ out.1 0 = 2) ∧
    philip_infiltration 1 [] (fun _ => 5) (fun _ => 2) = .error .indexError :=
  philip_unmatched_default 1 ⟨0, 7⟩ [] (fun _ => 5) (fun _ => 2) 0 0
    (by norm_num) (by norm_num) (by decide)

/-- The state visible around a `philip_infiltration` call: the module-level
`combinatIndex` table together with the returned `(bil, infiltration)` pair.
The Python function only reads `z[0]` and `z[3]` from the table and never
assigns into it, so the pass carries the table through unchanged. -/
def philip_pass (n : ℕ) (soil : ℕ → ℤ) (table : List InfGroup)
    (bil : ℕ → ℚ) : Except PyErr (List InfGroup × (ℕ → ℚ) × (ℕ → ℚ)) :=
  (philip_infiltration n table soil bil).map fun out => (table, out.1, out.2)

/-- Total depth infiltrated during a pass into the cells of group id `g`. -/
def totalInfil (n : ℕ) (soil : ℕ → ℤ) (g : ℤ) (infil : ℕ → ℚ) : ℚ :=
  ∑ j ∈ Finset.range n, if soil j = g then infil j else 0

/-- The claim that after a pass every group's capacity entry in the table is
decremented by the total amount infiltrated into that group's cells. -/
def claimC5Prop : Prop :=
  ∀ (n : ℕ) (soil : ℕ → ℤ) (table : List InfGroup) (bil : ℕ → ℚ)
    (out : List InfGroup × (ℕ → ℚ) × (ℕ → ℚ)),
    philip_pass n soil table bil = .ok out →
    ∀ g, (out.1.getD g ⟨0, 0⟩).cap =
      (table.getD g ⟨0, 0⟩).cap -
        totalInfil n soil (table.getD g ⟨0, 0⟩).gid out.2.2

/-- C5 counterexample: one group of capacity 1, one cell of depth 1/2; the
cell infiltrates 1/2, yet the table still carries capacity 1 afterwards, not
1 − 1/2. -/
theorem philip_capacity_counterexample : ¬ claimC5Prop := by
  intro h
  have hc := h 1 (fun _ => 0) [⟨0, 2⟩] (fun _ => 1) _ rfl 0
  simp only [philip_pass, philip_infiltration, philipLoop] at hc
  norm_num [totalInfil, stepInfil, List.getD] at hc

/-- C5 (amended): `philip_infiltration` leaves the group table unchanged —
capacities are not decremented by the pass (the per-step capacity refill is
computed separately by `phlilip`); only the returned depth and infiltration
arrays reflect the infiltrated amounts. -/
theorem philip_pass_table_unchanged (n : ℕ) (soil : ℕ → ℤ)
    (table : List InfGroup) (bil : ℕ → ℚ)
    (out : List InfGroup × (ℕ → ℚ) × (ℕ → ℚ))
    (h : philip_pass n soil table bil = .ok out) : out.1 = table := by
  unfold philip_pass at h
  cases hres : philip_infiltration n table soil bil with
  | error e => rw [hres] at h; exact Except.noConfusion h
  | ok o =>
      rw [hres] at h
      simp only [Except.map] at h
      cases h
      rfl

/-- The table component of a pass result (the input table on an exception). -/
def tableOf : Except PyErr (List InfGroup × (ℕ → ℚ) × (ℕ → ℚ)) →
    List InfGroup
  | .ok o => o.1
  | .error _ => []

/-- Instance of the amended C5 statement at a concrete input: after a pass
that infiltrates a positive amount, the table still reads `[⟨0, 2⟩]`. -/
theorem philip_pass_table_unchanged_witness :
    tableOf (philip_pass 1 (fun _ => 0) [⟨0, 2⟩] (fun _ => 1)) = [⟨0, 2⟩] := by
  obtain ⟨out, hout⟩ :
      ∃ out, philip_pass 1 (fun _ => 0) [⟨0, 2⟩] (fun _ => 1) = .ok out :=
    ⟨_, rfl⟩
  rw [hout]
  simpa [tableOf] using
    philip_pass_table_unchanged 1 (fun _ => 0) [⟨0, 2⟩] (fun _ => 1) out hout

open Classical in
/-- `phlilip(k, s, deltaT, totalT, NoDataValue)`: the per-step capacity
increment of the two-term Philip law.  The Python guard is
`if k and s == NoDataValue`, i.e. truthiness of `k` (non-zero) conjoined with
`s == NoDataValue`; only then is the sentinel returned, otherwise the rate
formula is evaluated (with `ma.divide` embedded as real division). -/
noncomputable def phlilip (k s deltaT totalT NoDataValue : ℝ) : ℝ :=
  if k ≠ 0 ∧ s = NoDataValue then NoDataValue
  else (0.5 * (s / Real.sqrt (totalT + deltaT)) + k) * deltaT

/-- The claim that `phlilip` yields the rate formula on real parameters and
the sentinel whenever a parameter is the no-data sentinel (sentinel values
never entering the arithmetic). -/
def claimC4Prop : Prop :=
  ∀ k s deltaT totalT nd : ℝ,
    ((k ≠ nd ∧ s ≠ nd) →
      phlilip k s deltaT totalT nd =
        (0.5 * (s / Real.sqrt (totalT + deltaT)) + k) * deltaT) ∧
    ((k = nd ∨ s = nd) → phlilip k s deltaT totalT nd = nd)

/-- C4 counterexample: with sentinel −9999, `phlilip(−9999, 1, 1, 0, −9999)`
takes the formula branch (the guard only tests `s`), combining the sentinel
conductivity arithmetically: the result is −9998.5, not the sentinel. -/
theorem phlilip_sentinel_counterexample : ¬ claimC4Prop := by
  intro h
  have hc := (h (-9999) 1 1 0 (-9999)).2 (Or.inl rfl)
  simp only [phlilip] at hc
  rw [if_neg (by norm_num : ¬((-9999 : ℝ) ≠ 0 ∧ (1 : ℝ) = -9999))] at hc
  rw [show (0 : ℝ) + 1 = 1 by norm_num, Real.sqrt_one] at hc
  norm_num at hc

/-- C4 (amended): `phlilip` returns the two-term increment
`(0.5·s/sqrt(totalT+deltaT) + k)·deltaT` whenever `k = 0` or
`s ≠ NoDataValue`, and returns the sentinel exactly when `k ≠ 0` and
`s = NoDataValue`; in particular both-real parameters get the formula and
both-sentinel parameters (non-zero sentinel) get the sentinel, but a
sentinel `k` paired with a real `s` is combined arithmetically into the
formula. -/
theorem phlilip_amended (k s deltaT totalT nd : ℝ) :
    ((k = 0 ∨ s ≠ nd) →
      phlilip k s deltaT totalT nd =
        (0.5 * (s / Real.sqrt (totalT + deltaT)) + k) * deltaT) ∧
    (k ≠ 0 → s = nd → phlilip k s deltaT totalT nd = nd) := by
  constructor
  · intro h
    have hcond : ¬(k ≠ 0 ∧ s = nd) := by
      rcases h with h0 | hs
      · exact fun hc => hc.1 h0
      · exact fun hc => hs hc.2
    simp only [phlilip, if_neg hcond]
  · intro hk hs
    simp only [phlilip, if_pos (And.intro hk hs)]

/-- Instance of the amended C4 statement: zero conductivity takes the
formula branch, and a non-zero `k` with sentinel `s` yields the sentinel. -/
theorem phlilip_amended_witness :
    phlilip 0 5 1 0 (-9999) = (0.5 * ((5 : ℝ) / Real.sqrt (0 + 1)) + 0) * 1 ∧
    phlilip 3 (-9999) 1 0 (-9999) = -9999 :=
  ⟨(phlilip_amended 0 5 1 0 (-9999)).1 (Or.inl rfl),
   (phlilip_amended 3 (-9999) 1 0 (-9999)).2 (by norm_num) rfl⟩

/-- The four per-cell outputs of `_get_crit_water`: the three critical-depth
estimates and the adopted critical depth. -/
structure CritOut where
  hcrit_tau : ℝ
  hcrit_v : ℝ
  hcrit_flux : ℝ
  hcrit : ℝ

open Classical in
/-- The per-cell body of `NoGisProvider._get_crit_water`: when neither the
slope nor the critical shear stress is the no-data value, the three
estimates are 1000 at zero slope and otherwise
`tau/98.07/slope`, `(v/aa)^(1/(b-1))`, `((tau·v)/slope/98.07/aa)^(1/b)`,
and the adopted depth is `min` of the three; otherwise all four outputs are
the no-data value. -/
noncomputable def critWaterCell (slope tau_crit v_crit b aa no_data : ℝ) :
    CritOut :=
  if slope ≠ no_data ∧ tau_crit ≠ no_data then
    let flux_crit := tau_crit * v_crit
    let e := 1 / (b - 1)
    let t : ℝ × ℝ × ℝ :=
      if slope = 0 then (1000, 1000, 1000)
      else (tau_crit / 98.07 / slope, (v_crit / aa) ^ e,
            (flux_crit / slope / 98.07 / aa) ^ (1 / b))
    ⟨t.1, t.2.1, t.2.2, min t.1 (min t.2.1 t.2.2)⟩
  else ⟨no_data, no_data, no_data, no_data⟩

/-- The claim that the adopted critical depth is the minimum of the three
estimates, that zero slope forces all of them to the fixed constant 1000,
and that a sentinel slope or shear parameter forces all of them to the
sentinel. -/
def claimC6Prop : Prop :=
  ∀ slope tau v b aa nd : ℝ,
    (critWaterCell slope tau v b aa nd).hcrit =
      min (critWaterCell slope tau v b aa nd).hcrit_tau
        (min (critWaterCell slope tau v b aa nd).hcrit_v
          (critWaterCell slope tau v b aa nd).hcrit_flux) ∧
    (slope = 0 →
      (critWaterCell slope tau v b aa nd).hcrit_tau = 1000 ∧
      (critWaterCell slope tau v b aa nd).hcrit_v = 1000 ∧
      (critWaterCell slope tau v b aa nd).hcrit_flux = 1000 ∧
      (critWaterCell slope tau v b aa nd).hcrit = 1000) ∧
    ((slope = nd ∨ tau = nd) →
      (critWaterCell slope tau v b aa nd).hcrit_tau = nd ∧
      (critWaterCell slope tau v b aa nd).hcrit_v = nd ∧
      (critWaterCell slope tau v b aa nd).hcrit_flux = nd ∧
      (critWaterCell slope tau v b aa nd).hcrit = nd)

/-- C6 counterexample: with a zero no-data value and zero slope, the no-data
check wins (the code tests it first), so every output is the sentinel 0 and
not the fixed constant 1000 the zero-slope clause of the claim demands. -/
theorem critWater_zero_counterexample : ¬ claimC6Prop := by
  intro h
  have hc := (h 0 1 1 2 1 0).2.1 rfl
  have hval : (critWaterCell 0 1 1 2 1 0).hcrit_tau = 0 := by
    simp only [critWaterCell]
    rw [if_neg (by norm_num : ¬((0 : ℝ) ≠ 0 ∧ (1 : ℝ) ≠ 0))]
  rw [hval] at hc
  exact absurd hc.1 (by norm_num)

/-- C6 (amended): the adopted critical depth always equals the minimum of
the three estimates; when slope and shear are both valid (non-sentinel) and
the slope is zero, all three estimates and the adopted depth are the fixed
constant 1000; and when the slope or the shear parameter is the sentinel,
all three estimates and the adopted depth are the sentinel (the no-data
check precedes the zero-slope check). -/
theorem critWaterCell_amended (slope tau v b aa nd : ℝ) :
    (critWaterCell slope tau v b aa nd).hcrit =
      min (critWaterCell slope tau v b aa nd).hcrit_tau
        (min (critWaterCell slope tau v b aa nd).hcrit_v
          (critWaterCell slope tau v b aa nd).hcrit_flux) ∧
    (slope ≠ nd → tau ≠ nd → slope = 0 →
      (critWaterCell slope tau v b aa nd).hcrit_tau = 1000 ∧
      (critWaterCell slope tau v b aa nd).hcrit_v = 1000 ∧
      (critWaterCell slope tau v b aa nd).hcrit_flux = 1000 ∧
      (critWaterCell slope tau v b aa nd).hcrit = 1000) ∧
    ((slope = nd ∨ tau = nd) →
      (critWaterCell slope tau v b aa nd).hcrit_tau = nd ∧
      (critWaterCell slope tau v b aa nd).hcrit_v = nd ∧
      (critWaterCell slope tau v b aa nd).hcrit_flux = nd ∧
      (critWaterCell slope tau v b aa nd).hcrit = nd) := by
  by_cases h1 : slope ≠ nd ∧ tau ≠ nd
  · by_cases h2 : slope = 0
    · refine ⟨?_, fun _ _ _ => ?_, fun hor => ?_⟩
      · simp only [critWaterCell, if_pos h1]
      · simp only [critWaterCell, if_pos h1, if_pos h2]
        norm_num
      · rcases hor with hsl | htau
        · exact absurd hsl h1.1
        · exact absurd htau h1.2
    · refine ⟨?_, fun _ _ h0 => absurd h0 h2, fun hor => ?_⟩
      · simp only [critWaterCell, if_pos h1]
      · rcases hor with hsl | htau
        · exact absurd hsl h1.1
        · exact absurd htau h1.2
  · refine ⟨?_, fun hsl htau _ => absurd (And.intro hsl htau) h1, fun _ => ?_⟩
    · simp only [critWaterCell, if_neg h1, min_self]
    · simp [critWaterCell, if_neg h1]

/-- Instance of the amended C6 statement: a valid zero-slope cell adopts the
fixed critical depth 1000, and a sentinel-slope cell propagates −9999. -/
theorem critWaterCell_amended_witness :
    (critWaterCell 0 1 1 2 1 (-9999)).hcrit = 1000 ∧
    (critWaterCell (-9999) 1 1 2 1 (-9999)).hcrit = -9999 :=
  ⟨((critWaterCell_amended 0 1 1 2 1 (-9999)).2.1
      (by norm_num) (by norm_num) rfl).2.2.2,
   ((critWaterCell_amended (-9999) 1 1 2 1 (-9999)).2.2 (Or.inl rfl)).2.2.2⟩

/-- The `vRest` raster of `BaseProvider.postprocessing`: filled with the
no-data value, then set for every active cell to `h_total_new * pixel_area`,
except that cells whose state reaches `streams_flow_inc` get the no-data
value. -/
def vRestArr (active : ℕ × ℕ → Bool) (state : ℕ × ℕ → ℤ) (flow_inc : ℤ)
    (h_total : ℕ × ℕ → ℚ) (pixel_area nd : ℚ) : ℕ × ℕ → ℚ :=
  fun ij =>
    if active ij then
      (if flow_inc ≤ state ij then nd else h_total ij * pixel_area)
    else nd

/-- The `totalBil` raster of `BaseProvider.postprocessing`: the array-wide
arithmetic `(precipitation + inflow_sur) - (infiltration + vol_sur_tot) -
sur_ret - vRest`, followed by the loop that overwrites every active cell in
a stream state (`state >= streams_flow_inc`) with the no-data value. -/
def totalBilArr (active : ℕ × ℕ → Bool) (state : ℕ × ℕ → ℤ) (flow_inc : ℤ)
    (precip inflow infil vol_sur ret h_total : ℕ × ℕ → ℚ)
    (pixel_area nd : ℚ) : ℕ × ℕ → ℚ :=
  fun ij =>
    if active ij = true ∧ flow_inc ≤ state ij then nd
    else
      precip ij + inflow ij - (infil ij + vol_sur ij) - ret ij -
        vRestArr active state flow_inc h_total pixel_area nd ij

/-- C7: at every active cell the final mass-balance raster carries
`(precipitation + inflow) − (infiltration + outflow volume) − retention −
(remaining depth × pixel area)`, and every active cell classified as channel
(state at or above `streams_flow_inc`) carries the no-data value instead. -/
theorem totalBil_active (active : ℕ × ℕ → Bool) (state : ℕ × ℕ → ℤ)
    (flow_inc : ℤ) (precip inflow infil vol_sur ret h_total : ℕ × ℕ → ℚ)
    (pixel_area nd : ℚ) (ij : ℕ × ℕ) (hact : active ij = true) :
    (state ij < flow_inc →
      totalBilArr active state flow_inc precip inflow infil vol_sur ret
          h_total pixel_area nd ij =
        (precip ij + inflow ij) - (infil ij + vol_sur ij) - ret ij -
          h_total ij * pixel_area) ∧
    (flow_inc ≤ state ij →
      totalBilArr active state flow_inc precip inflow infil vol_sur ret
          h_total pixel_area nd ij = nd) := by
  constructor
  · intro hlt
    have hnot : ¬ flow_inc ≤ state ij := not_le.mpr hlt
    simp [totalBilArr, vRestArr, hact, hnot]
  · intro hge
    simp only [totalBilArr, if_pos (And.intro hact hge)]

/-- Instance of C7 at a concrete input: a channel cell carries −9999, an
ordinary cell carries its closing balance. -/
theorem totalBil_active_witness :
    totalBilArr (fun _ => true) (fun ij => if ij = (0, 0) then 5 else 1) 3
        (fun _ => 4) (fun _ => 1) (fun _ => 1) (fun _ => 1) (fun _ => 1)
        (fun _ => 1) 2 (-9999) (0, 0) = -9999 ∧
    totalBilArr (fun _ => true) (fun ij => if ij = (0, 0) then 5 else 1) 3
        (fun _ => 4) (fun _ => 1) (fun _ => 1) (fun _ => 1) (fun _ => 1)
        (fun _ => 1) 2 (-9999) (0, 1) = (4 + 1) - (1 + 1) - 1 - 1 * 2 :=
  ⟨(totalBil_active (fun _ => true) (fun ij => if ij = (0, 0) then 5 else 1) 3
      (fun _ => 4) (fun _ => 1) (fun _ => 1) (fun _ => 1) (fun _ => 1)
      (fun _ => 1) 2 (-9999) (0, 0) rfl).2 (by norm_num),
   (totalBil_active (fun _ => true) (fun ij => if ij = (0, 0) then 5 else 1) 3
      (fun _ => 4) (fun _ => 1) (fun _ => 1) (fun _ => 1) (fun _ => 1)
      (fun _ => 1) 2 (-9999) (0, 1) rfl).1 (by norm_num)⟩

/-- Ascending insertion used to model the sorted output of `ma.unique`. -/
def insertSorted (x : ℚ) : List ℚ → List ℚ
  | [] => [x]
  | y :: ys => if x ≤ y then x :: y :: ys else y :: insertSorted x ys

/-- Insertion sort on rational samples. -/
def sortListQ (xs : List ℚ) : List ℚ :=
  xs.foldr insertSorted []

/-- `ma.unique` on an unmasked sample array: the distinct sample values in
ascending order. -/
def maUnique (xs : List ℚ) : List ℚ :=
  sortListQ xs.dedup

/-- One row of the reach result table of `BaseProvider.postprocessing`:
raise `SmoderpError` if `len(ma.unique(V_out_cum)) > 2` or
`len(ma.unique(Q_max)) > 2`, otherwise store `ma.unique(V_out_cum)[0]` and
`ma.unique(Q_max)[0]` (an `IndexError` on empty samples). -/
def reachRow (vSamples qSamples : List ℚ) : Except PyErr (ℚ × ℚ) :=
  if 2 < (maUnique vSamples).length then .error .smoderpError
  else if 2 < (maUnique qSamples).length then .error .smoderpError
  else
    match maUnique vSamples, maUnique qSamples with
    | v :: _, q :: _ => .ok (v, q)
    | _, _ => .error .indexError

/-- C2: cumulative-volume samples {12.5, 12.5, 12.5} yield the row value
12.5, but the two distinct samples {12.5, 13.0} do NOT raise the
consistency error — the guard only fires above two distinct values (here
shown raising at {1, 2, 3}) — and the row silently carries the smaller
value 12.5. -/
theorem reachRow_eval :
    reachRow [12.5, 12.5, 12.5] [7] = .ok (12.5, 7) ∧
    reachRow [12.5, 13] [7] = .ok (12.5, 7) ∧
    reachRow [1, 12.5, 13] [7] = .error .smoderpError := by
  refine ⟨?_, ?_, ?_⟩ <;>
    norm_num [reachRow, maUnique, sortListQ, insertSorted]

/-- Python `combinat.index(ccc)`: the index of the first occurrence of the
pair, or `none` for the `ValueError` caught by the scan's bare `except`. -/
def pyIndex (l : List (ℚ × ℚ)) (c : ℚ × ℚ) : Option ℕ :=
  match l with
  | [] => none
  | d :: rest => if d = c then some 0 else (pyIndex rest c).map (· + 1)

/-- State of the `_set_combinatIndex` scan: the `combinat` list of parameter
pairs seen so far, the `combinatIndex` table of `[id, k, s, 0]` entries, and
the `mat_inf_index` array (flattened row-major, `np.zeros` initially). -/
structure ScanState where
  combinat : List (ℚ × ℚ)
  combinatIndex : List (ℕ × ℚ × ℚ × ℚ)
  matInf : ℕ → ℕ

/-- One cell of the scan.  `try: if combinat.index(ccc): mat_inf_index[i][j]
= combinat.index(ccc)` — a hit at index 0 is falsy, so the assignment is
skipped and the cell keeps its initial 0; a hit elsewhere stores the index.
The `ValueError` branch appends the pair and the entry
`[combinat.index(ccc), kkk, sss, 0]` and stores the index; right after the
append the first index of the pair is the previous length (the pair was
absent before — `pyIndex_append_self` below). -/
def scanStep (st : ScanState) (p : ℕ) (c : ℚ × ℚ) : ScanState :=
  match pyIndex st.combinat c with
  | some i =>
      if i ≠ 0 then { st with matInf := Function.update st.matInf p i } else st
  | none =>
      { combinat := st.combinat ++ [c]
        combinatIndex := st.combinatIndex ++ [(st.combinat.length, c.1, c.2, 0)]
        matInf := Function.update st.matInf p st.combinat.length }

/-- The row-major double loop of `_set_combinatIndex`, flattened to cell
positions starting at `p`. -/
def scanGo (p : ℕ) (cells : List (ℚ × ℚ)) (st : ScanState) : ScanState :=
  match cells with
  | [] => st
  | c :: rest => scanGo (p + 1) rest (scanStep st p c)

/-- `_set_combinatIndex` over the flattened parameter grid: every cell is
scanned once, starting from empty tables and an all-zero index array. -/
def set_combinatIndex (params : List (ℚ × ℚ)) : ScanState :=
  scanGo 0 params ⟨[], [], fun _ => 0⟩

/-- Spec-side description of the group list, for comparison with the scan:
the distinct parameter pairs in order of first occurrence. -/
def firstSeen (params : List (ℚ × ℚ)) : List (ℚ × ℚ) :=
  params.foldl (fun acc c => if c ∈ acc then acc else acc ++ [c]) []

theorem scanStep_eq_of_some (st : ScanState) (p : ℕ) (c : ℚ × ℚ) (i : ℕ)
    (h : pyIndex st.combinat c = some i) :
    scanStep st p c =
      if i ≠ 0 then { st with matInf := Function.update st.matInf p i }
      else st := by
  unfold scanStep
  rw [h]

theorem scanStep_eq_of_none (st : ScanState) (p : ℕ) (c : ℚ × ℚ)
    (h : pyIndex st.combinat c = none) :
    scanStep st p c =
      { combinat := st.combinat ++ [c]
        combinatIndex := st.combinatIndex ++ [(st.combinat.length, c.1, c.2, 0)]
        matInf := Function.update st.matInf p st.combinat.length } := by
  unfold scanStep
  rw [h]

theorem pyIndex_eq_none (l : List (ℚ × ℚ)) (c : ℚ × ℚ) :
    pyIndex l c = none ↔ c ∉ l := by
  induction l with
  | nil => simp [pyIndex]
  | cons d rest ih =>
      by_cases h : d = c
      · simp [pyIndex, h]
      · simp only [pyIndex, if_neg h, Option.map_eq_none', ih,
          List.mem_cons]
        constructor
        · intro hn hor
          rcases hor with he | hm
          · exact h he.symm
          · exact hn hm
        · intro hn hm
          exact hn (Or.inr hm)

theorem pyIndex_some_get (l : List (ℚ × ℚ)) (c : ℚ × ℚ) (i : ℕ)
    (h : pyIndex l c = some i) : l[i]? = some c := by
  induction l generalizing i with
  | nil => simp [pyIndex] at h
  | cons d rest ih =>
      by_cases hd : d = c
      · simp only [pyIndex, if_pos hd, Option.some.injEq] at h
        rw [← h]
        simpa using hd
      · simp only [pyIndex, if_neg hd, Option.map_eq_some'] at h
        obtain ⟨j, hj, rfl⟩ := h
        simpa using ih j hj

theorem pyIndex_append_self (l : List (ℚ × ℚ)) (c : ℚ × ℚ) (h : c ∉ l) :
    pyIndex (l ++ [c]) c = some l.length := by
  induction l with
  | nil => simp [pyIndex]
  | cons d rest ih =>
      have h' : c ≠ d ∧ c ∉ rest := by simpa [List.mem_cons] using h
      have hd : ¬ d = c := fun he => h'.1 he.symm
      simp only [List.cons_append, pyIndex, if_neg hd, List.append_eq]
      rw [ih h'.2]
      simp

theorem firstSeen_snoc (l : List (ℚ × ℚ)) (c : ℚ × ℚ) :
    firstSeen (l ++ [c]) =
      if c ∈ firstSeen l then firstSeen l else firstSeen l ++ [c] := by
  unfold firstSeen
  rw [List.foldl_append]
  simp only [List.foldl_cons, List.foldl_nil]

theorem mem_foldl_firstSeen (l : List (ℚ × ℚ)) (acc : List (ℚ × ℚ))
    (x : ℚ × ℚ) :
    x ∈ l.foldl (fun acc c => if c ∈ acc then acc else acc ++ [c]) acc ↔
      x ∈ acc ∨ x ∈ l := by
  induction l generalizing acc with
  | nil => simp
  | cons c rest ih =>
      rw [List.foldl_cons, ih]
      by_cases hc : c ∈ acc
      · rw [if_pos hc]
        constructor
        · rintro (h | h)
          · exact Or.inl h
          · exact Or.inr (List.mem_cons_of_mem c h)
        · rintro (h | h)
          · exact Or.inl h
          · rcases List.mem_cons.mp h with he | hm
            · exact Or.inl (he ▸ hc)
            · exact Or.inr hm
      · rw [if_neg hc]
        simp only [List.mem_append, List.mem_singleton, List.mem_cons]
        tauto

theorem mem_firstSeen (l : List (ℚ × ℚ)) (x : ℚ × ℚ) :
    x ∈ firstSeen l ↔ x ∈ l := by
  simpa using mem_foldl_firstSeen l [] x

theorem nodup_foldl_firstSeen (l : List (ℚ × ℚ)) (acc : List (ℚ × ℚ))
    (h : acc.Nodup) :
    (l.foldl (fun acc c => if c ∈ acc then acc else acc ++ [c]) acc).Nodup := by
  induction l generalizing acc with
  | nil => exact h
  | cons c rest ih =>
      rw [List.foldl_cons]
      apply ih
      by_cases hc : c ∈ acc
      · rwa [if_pos hc]
      · rw [if_neg hc]
        simp [List.nodup_append, h, hc]

theorem nodup_firstSeen (l : List (ℚ × ℚ)) : (firstSeen l).Nodup :=
  nodup_foldl_firstSeen l [] List.nodup_nil

/-- The scan invariant over the processed prefix `seen`: the `combinat` list
is exactly the first-seen distinct pairs, the `combinatIndex` table holds one
entry `(g, k, s, 0)` per position `g` of `combinat`, every processed cell's
stored index points at its own parameter pair, and unprocessed positions
still hold the initial 0. -/
def ScanInv (seen : List (ℚ × ℚ)) (st : ScanState) : Prop :=
  st.combinat = firstSeen seen ∧
  st.combinatIndex =
    st.combinat.enum.map (fun gc => (gc.1, gc.2.1, gc.2.2, (0 : ℚ))) ∧
  (∀ q, q < seen.length → st.combinat[st.matInf q]? = seen[q]?) ∧
  (∀ q, seen.length ≤ q → st.matInf q = 0)

theorem scanStep_inv (seen : List (ℚ × ℚ)) (st : ScanState) (c : ℚ × ℚ)
    (h : ScanInv seen st) :
    ScanInv (seen ++ [c]) (scanStep st seen.length c) := by
  unfold ScanInv at h ⊢
  obtain ⟨h1, h2, h3, h4⟩ := h
  have hlen : (seen ++ [c]).length = seen.length + 1 := by simp
  cases hfind : pyIndex st.combinat c with
  | some i =>
      have hget : st.combinat[i]? = some c := pyIndex_some_get _ _ _ hfind
      have hmem : c ∈ st.combinat := by
        obtain ⟨hlt, he⟩ := List.getElem?_eq_some.mp hget
        exact he ▸ List.getElem_mem hlt
      rw [scanStep_eq_of_some st seen.length c i hfind]
      by_cases hi : i ≠ 0
      · rw [if_pos hi]
        refine ⟨?_, h2, ?_, ?_⟩
        · show st.combinat = firstSeen (seen ++ [c])
          rw [firstSeen_snoc, if_pos (h1 ▸ hmem), ← h1]
        · intro q hq
          rw [hlen] at hq
          show st.combinat[Function.update st.matInf seen.length i q]? =
            (seen ++ [c])[q]?
          rcases Nat.lt_succ_iff_lt_or_eq.mp hq with hq' | hq'
          · have hupd : Function.update st.matInf seen.length i q =
                st.matInf q :=
              Function.update_noteq (Nat.ne_of_lt hq') _ _
            rw [hupd, List.getElem?_append_left hq']
            exact h3 q hq'
          · subst hq'
            rw [Function.update_same, List.getElem?_concat_length]
            exact hget
        · intro q hq
          rw [hlen] at hq
          show Function.update st.matInf seen.length i q = 0
          have hupd : Function.update st.matInf seen.length i q =
              st.matInf q :=
            Function.update_noteq (by omega) _ _
          rw [hupd]
          exact h4 q (by omega)
      · rw [if_neg hi]
        push_neg at hi
        subst hi
        refine ⟨?_, h2, ?_, ?_⟩
        · rw [firstSeen_snoc, if_pos (h1 ▸ hmem), ← h1]
        · intro q hq
          rw [hlen] at hq
          rcases Nat.lt_succ_iff_lt_or_eq.mp hq with hq' | hq'
          · rw [List.getElem?_append_left hq']
            exact h3 q hq'
          · subst hq'
            rw [h4 seen.length le_rfl, List.getElem?_concat_length]
            exact hget
        · intro q hq
          rw [hlen] at hq
          exact h4 q (by omega)
  | none =>
      have hnm : c ∉ st.combinat := (pyIndex_eq_none _ _).mp hfind
      have hcfs : ¬ c ∈ firstSeen seen := h1 ▸ hnm
      rw [scanStep_eq_of_none st seen.length c hfind]
      refine ⟨?_, ?_, ?_, ?_⟩
      · show st.combinat ++ [c] = firstSeen (seen ++ [c])
        rw [firstSeen_snoc, if_neg hcfs, ← h1]
      · show st.combinatIndex ++ [(st.combinat.length, c.1, c.2, 0)] =
          (st.combinat ++ [c]).enum.map
            (fun gc => (gc.1, gc.2.1, gc.2.2, (0 : ℚ)))
        rw [List.enum_append, List.map_append, ← h2]
        congr 1
      · intro q hq
        rw [hlen] at hq
        show (st.combinat ++
            [c])[Function.update st.matInf seen.length st.combinat.length q]? =
          (seen ++ [c])[q]?
        rcases Nat.lt_succ_iff_lt_or_eq.mp hq with hq' | hq'
        · have hupd : Function.update st.matInf seen.length
              st.combinat.length q = st.matInf q :=
            Function.update_noteq (Nat.ne_of_lt hq') _ _
          rw [hupd]
          have hc3 := h3 q hq'
          have hq'' : st.matInf q < st.combinat.length := by
            rw [List.getElem?_eq_getElem hq'] at hc3
            obtain ⟨hlt, _⟩ := List.getElem?_eq_some.mp hc3
            exact hlt
          rw [List.getElem?_append_left hq'', List.getElem?_append_left hq']
          exact h3 q hq'
        · subst hq'
          rw [Function.update_same, List.getElem?_concat_length,
            List.getElem?_concat_length]
      · intro q hq
        rw [hlen] at hq
        show Function.update st.matInf seen.length st.combinat.length q = 0
        have hupd : Function.update st.matInf seen.length
            st.combinat.length q = st.matInf q :=
          Function.update_noteq (by omega) _ _
        rw [hupd]
        exact h4 q (by omega)

theorem scanGo_inv (cells : List (ℚ × ℚ)) (seen : List (ℚ × ℚ))
    (st : ScanState) (h : ScanInv seen st) :
    ScanInv (seen ++ cells) (scanGo seen.length cells st) := by
  induction cells generalizing seen st with
  | nil => simpa using h
  | cons c rest ih =>
      have hstep := scanStep_inv seen st c h
      have hrec := ih (seen ++ [c]) (scanStep st seen.length c) hstep
      have hl : (seen ++ [c]).length = seen.length + 1 := by simp
      rw [hl] at hrec
      have ha : (seen ++ [c]) ++ rest = seen ++ (c :: rest) := by simp
      rw [ha] at hrec
      exact hrec

theorem set_combinatIndex_inv (params : List (ℚ × ℚ)) :
    ScanInv params (set_combinatIndex params) := by
  have h0 : ScanInv [] ⟨[], [], fun _ => 0⟩ := by
    refine ⟨rfl, rfl, ?_, fun _ _ => rfl⟩
    intro q hq
    exact absurd hq (Nat.not_lt_zero q)
  simpa using scanGo_inv params [] ⟨[], [], fun _ => 0⟩ h0

/-- C9: after the `_set_combinatIndex` scan, the `combinat` list is exactly
the distinct (conductivity, sorptivity) pairs in first-seen scan order
(hence has no duplicates and covers exactly the scanned pairs), the group
table `combinatIndex` has one entry `(g, k, s, 0)` for each position `g` of
`combinat` — dense ids starting at 0 in first-seen order — and every cell's
stored group id points at the entry carrying that cell's parameter pair. -/
theorem set_combinatIndex_spec (params : List (ℚ × ℚ)) :
    (set_combinatIndex params).combinat = firstSeen params ∧
    (set_combinatIndex params).combinat.Nodup ∧
    (∀ x, x ∈ (set_combinatIndex params).combinat ↔ x ∈ params) ∧
    (set_combinatIndex params).combinatIndex =
      (set_combinatIndex params).combinat.enum.map
        (fun gc => (gc.1, gc.2.1, gc.2.2, (0 : ℚ))) ∧
    (∀ q, q < params.length →
      (set_combinatIndex params).combinat[(set_combinatIndex
        params).matInf q]? = params[q]?) := by
  obtain ⟨h1, h2, h3, _⟩ := set_combinatIndex_inv params
  refine ⟨h1, ?_, ?_, h2, h3⟩
  · rw [h1]
    exact nodup_firstSeen params
  · intro x
    rw [h1]
    exact mem_firstSeen params x

/-- Instance of C9 at the concrete grid `[(1,2), (3,4), (1,2)]`: the third
cell's stored group id points back at the entry holding the pair (1, 2). -/
theorem set_combinatIndex_spec_witness :
    (set_combinatIndex [(1, 2), (3, 4), (1, 2)]).combinat[(set_combinatIndex
      [(1, 2), (3, 4), (1, 2)]).matInf 2]? =
      [((1 : ℚ), (2 : ℚ)), (3, 4), (1, 2)][2]? :=
  (set_combinatIndex_spec [(1, 2), (3, 4), (1, 2)]).2.2.2.2 2 (by norm_num)
